import Mathlib

/-!
A verification development for the PEGTL matching-engine fragment around the
`must`, `at` and `not_at` combinators.

The embedding translates the rule types and their `match` functions from the
C++ sources (`include/tao/pegtl/internal/must.hpp` and the `at.hpp` source
file) into Lean.  Rules are a deep syntax (`Rule`); the engine state is an
input cursor position plus the user state and a log of the rules dispatched
through the `Control` hook; matching returns `Except` so that a raised parse
error is a non-local exit distinct from an ordinary boolean failure.

Parts of the engine that the given sources only reference (the `seq`
combinator, the rewind markers, the default `raise` behaviour, the control
wrapper and the `not_at` combinator) are modelled from the specification
text; each such definition carries a `Modelled from the spec:` comment.
-/

namespace PEGTLSpec

/-- apply_mode.hpp: the two-valued toggle (`action`/`nothing`) that enables or
disables Action hooks down the call tree. -/
inductive ApplyMode : Type where
  | action
  | nothing
deriving DecidableEq, Repr

/-- rewind_mode.hpp: the three rewind disciplines (`required`, `active`,
`dontcare`) of the input-cursor mark contract. -/
inductive RewindMode : Type where
  | required
  | active
  | dontcare
deriving DecidableEq, Repr

/-- The grammar-rule syntax needed by the combinators under study.
`success`, `one`, `any` and `eof` are the primitive matchers; `seq` is the
sequence combinator; `at1`/`atN` are the single-rule specialization and the
variadic primary template of `at<...>`; `must1`/`mustN` likewise for
`must<...>`; `not_at` is the negative lookahead. -/
inductive Rule : Type where
  | success
  | one (c : Char)
  | any
  | eof
  | seq (rs : List Rule)
  | at1 (r : Rule)
  | atN (rs : List Rule)
  | not_at (r : Rule)
  | must1 (r : Rule)
  | mustN (rs : List Rule)

/-- A raised parse error: rule identity plus the input position at which the
raise hook was invoked (spec section 3, "Raised Error"). -/
structure PErr : Type where
  rule : Rule
  pos : Nat

/-- The mutable half of a parse: the cursor position into the fixed input
data, the user state `user` threaded through Action hooks, and `calls`, a log
recording every rule dispatched through the `Control` hook (most recent
first). -/
structure St (σ : Type) : Type where
  pos : Nat
  user : σ
  calls : List Rule

/-- Matching outcome: a raised error aborts everything; a normal return is a
boolean plus the updated state. -/
abbrev Res (σ : Type) : Type := Except PErr (Bool × St σ)

/-- The pluggable hooks of a parse run: the Action hook `act` (applied to the
rule, the matched range's begin and end offsets, and the user state) and the
raise hook `raiseHook` invoked by `must` on failure.  The raise contract says
a raise hook never returns normally, but the type permits a misbehaving hook
so that the shape of `must<Rule>::match` can be examined against it. -/
structure Hooks (σ : Type) : Type where
  act : Rule → Nat → Nat → σ → σ
  raiseHook : Rule → St σ → Except PErr (Bool × St σ)

/-- Modelled from the spec: the default raise hook "constructs a diagnostic
message naming the rule and position and performs a non-local exit"
(raise.hpp is not among the given sources). -/
def defaultRaise {σ : Type} (r : Rule) (st : St σ) : Res σ :=
  .error ⟨r, st.pos⟩

mutual

/-- Structural size measure used for termination of the matching functions;
the variadic `atN`/`mustN` nodes weigh more than the node they expand to. -/
def size : Rule → Nat
  | .success => 1
  | .one _ => 1
  | .any => 1
  | .eof => 1
  | .seq rs => 1 + sizeList rs
  | .at1 r => 1 + size r
  | .atN rs => 2 + sizeList rs
  | .not_at r => 1 + size r
  | .must1 r => 1 + size r
  | .mustN rs => 2 + sizeList rs

def sizeList : List Rule → Nat
  | [] => 0
  | r :: rest => 2 + size r + sizeList rest

end

/-- Modelled from the spec: the rewind mode a mark hands to the rules it
covers.  A `required` mark itself guarantees restoration, so the rules under
it run `active`; `active` and `dontcare` pass through unchanged (visible in
the at.hpp source, which takes a `required` mark and matches its sub-rule
with `rewind_mode::active`). -/
def nextMode : RewindMode → RewindMode
  | .required => .active
  | .active => .active
  | .dontcare => .dontcare

/-- Modelled from the spec: the `m(result)` pattern of a scoped mark around a
combinator body — on a `false` result the cursor is restored to the entry
position unless the discipline is `dontcare`; a `true` result commits; a
raised error propagates (the mark's own restoration during unwinding is not
observable through the error value, which carries its own position). -/
def runMark {σ : Type} (M : RewindMode) (entry : Nat) : Res σ → Res σ
  | .ok (true, st) => .ok (true, st)
  | .ok (false, st) =>
      .ok (false, if M = .dontcare then st else { st with pos := entry })
  | .error e => .error e

/-- The primitive (leaf) rules, whose successful match triggers the Action
hook when the apply mode enables it. -/
def isLeaf : Rule → Bool
  | .success => true
  | .one _ => true
  | .any => true
  | .eof => true
  | _ => false

mutual

/-- Modelled from the spec: `Control<R>::match` — every rule is matched
through the Control hook parameterized by the rule type (the call sites in
must.hpp line 47 and at.hpp line 45 both read `Control< Rule >::template
match< ... >`).  The dispatch is recorded in `calls`; after a successful
leaf match the Action hook is applied with the matched range when the
current apply mode is `action`. -/
def controlMatch {σ : Type} (H : Hooks σ) (d : List Char) (r : Rule)
    (A : ApplyMode) (M : RewindMode) (st : St σ) : Res σ :=
  let st0 : St σ := { st with calls := r :: st.calls }
  match matchR H d r A M st0 with
  | .ok (true, st') =>
      if A = .action ∧ isLeaf r then
        .ok (true, { st' with user := H.act r st.pos st'.pos st'.user })
      else
        .ok (true, st')
  | .ok (false, st') => .ok (false, st')
  | .error e => .error e
termination_by 2 * size r + 1
decreasing_by all_goals first
  | omega
  | (simp [size, sizeList] <;> omega)

/-- The match function of each rule.

* `success`, `one`, `any`, `eof`: modelled from the spec's primitive
  matchers (succeed trivially / match one given character / match any
  character / match only at end of input; a failing leaf consumes nothing).
* `seq rs`: modelled from the spec — takes a mark with the incoming rewind
  mode, matches the rules in order through their Control hooks under the
  mark's `next` rewind mode, fails as soon as one fails, and the mark
  restores the entry position on failure per its discipline.
* `at1 r`: from at.hpp lines 29-47 — takes a `required` mark that is never
  committed and matches `r` with `apply_mode::nothing, rewind_mode::active`;
  the incoming apply and rewind modes are ignored (unnamed parameters).
* `atN rs`: from at.hpp lines 19-27 — `at<>` is `success`; `at<R>` is the
  single-rule specialization; `at<R1,R2,...>` inherits `at< seq<R1,R2,...> >`
  (the single-rule body applied to the sequence node, inlined here).
* `not_at r`: modelled from the spec — like `at1` but succeeds iff the
  sub-rule fails.
* `must1 r`: from must.hpp lines 31-52 — matches `r` through its Control
  hook with the incoming apply mode and `rewind_mode::dontcare` (its own
  rewind-mode parameter is unnamed and unused, and it takes no mark); on a
  `false` result it invokes `raise< Rule >::match` directly, discards that
  result, and returns `true` unconditionally.
* `mustN rs`: from must.hpp lines 22-25 — `must<Rules...>` inherits
  `seq< must<Rules>... >`, applying `must` to each rule of the pack
  individually (the sequence body over the must-wrapped rules, inlined
  here); a one-rule pack resolves to the `must1` specialization. -/
def matchR {σ : Type} (H : Hooks σ) (d : List Char) (r : Rule)
    (A : ApplyMode) (M : RewindMode) (st : St σ) : Res σ :=
  match r with
  | .success => .ok (true, st)
  | .one c =>
      if h : st.pos < d.length then
        if d.get ⟨st.pos, h⟩ = c then .ok (true, { st with pos := st.pos + 1 })
        else .ok (false, st)
      else .ok (false, st)
  | .any =>
      if st.pos < d.length then .ok (true, { st with pos := st.pos + 1 })
      else .ok (false, st)
  | .eof =>
      if d.length ≤ st.pos then .ok (true, st) else .ok (false, st)
  | .seq rs => runMark M st.pos (matchList H d rs A (nextMode M) st)
  | .at1 r' =>
      (match controlMatch H d r' .nothing .active st with
       | .ok (b, st') => .ok (b, { st' with pos := st.pos })
       | .error e => .error e)
  | .atN rs =>
      (match rs with
       | [] => .ok (true, st)
       | [r'] => matchR H d (.at1 r') A M st
       | r₁ :: r₂ :: rest =>
          (match controlMatch H d (.seq (r₁ :: r₂ :: rest)) .nothing .active st with
           | .ok (b, st') => .ok (b, { st' with pos := st.pos })
           | .error e => .error e))
  | .not_at r' =>
      (match controlMatch H d r' .nothing .active st with
       | .ok (b, st') => .ok (!b, { st' with pos := st.pos })
       | .error e => .error e)
  | .must1 r' =>
      (match controlMatch H d r' A .dontcare st with
       | .ok (true, st') => .ok (true, st')
       | .ok (false, st') =>
          (match H.raiseHook r' st' with
           | .ok (_, st'') => .ok (true, st'')
           | .error e => .error e)
       | .error e => .error e)
  | .mustN rs =>
      (match rs with
       | [r'] => matchR H d (.must1 r') A M st
       | rs' => runMark M st.pos (matchMustList H d rs' A (nextMode M) st))
termination_by 2 * size r
decreasing_by all_goals first
  | omega
  | (simp [size, sizeList] <;> omega)

/-- Modelled from the spec: the body of `seq` — match each rule in order
through its Control hook, stopping at the first failure or raised error. -/
def matchList {σ : Type} (H : Hooks σ) (d : List Char) (rs : List Rule)
    (A : ApplyMode) (M : RewindMode) (st : St σ) : Res σ :=
  match rs with
  | [] => .ok (true, st)
  | r :: rest =>
      (match controlMatch H d r A M st with
       | .ok (true, st') => matchList H d rest A M st'
       | .ok (false, st') => .ok (false, st')
       | .error e => .error e)
termination_by 2 * sizeList rs + 1
decreasing_by all_goals first
  | omega
  | (simp [size, sizeList] <;> omega)

/-- The body of the sequence that `must<Rules...>` inherits from: each rule
of the pack is wrapped in its own `must` and dispatched through the Control
hook, in order. -/
def matchMustList {σ : Type} (H : Hooks σ) (d : List Char) (rs : List Rule)
    (A : ApplyMode) (M : RewindMode) (st : St σ) : Res σ :=
  match rs with
  | [] => .ok (true, st)
  | r :: rest =>
      (match controlMatch H d (.must1 r) A M st with
       | .ok (true, st') => matchMustList H d rest A M st'
       | .ok (false, st') => .ok (false, st')
       | .error e => .error e)
termination_by 2 * sizeList rs + 1
decreasing_by all_goals first
  | omega
  | (simp [size, sizeList] <;> omega)

end

mutual

/-- A pure reference denotation of matching, used in proofs: position in,
and either a raised error (with the default raise hook) or a success flag
plus position out, under the convention that no mark ever rewinds — on
failure the position is the raw position at which matching stopped, as seen
under the `dontcare` discipline. -/
def runR (d : List Char) : Rule → Nat → Except PErr (Bool × Nat)
  | .success, p => .ok (true, p)
  | .one c, p =>
      if h : p < d.length then
        if d.get ⟨p, h⟩ = c then .ok (true, p + 1) else .ok (false, p)
      else .ok (false, p)
  | .any, p => if p < d.length then .ok (true, p + 1) else .ok (false, p)
  | .eof, p => if d.length ≤ p then .ok (true, p) else .ok (false, p)
  | .seq rs, p => runL d rs p
  | .at1 r, p =>
      (match runR d r p with
       | .ok (b, _) => .ok (b, p)
       | .error e => .error e)
  | .atN rs, p =>
      (match rs with
       | [] => .ok (true, p)
       | [r] => runR d (.at1 r) p
       | r₁ :: r₂ :: rest =>
          (match runL d (r₁ :: r₂ :: rest) p with
           | .ok (b, _) => .ok (b, p)
           | .error e => .error e))
  | .not_at r, p =>
      (match runR d r p with
       | .ok (b, _) => .ok (!b, p)
       | .error e => .error e)
  | .must1 r, p =>
      (match runR d r p with
       | .ok (true, p') => .ok (true, p')
       | .ok (false, p') => .error ⟨r, p'⟩
       | .error e => .error e)
  | .mustN rs, p =>
      (match rs with
       | [r] => runR d (.must1 r) p
       | rs' => runML d rs' p)
termination_by r _ => 2 * size r
decreasing_by all_goals first
  | omega
  | (simp [size, sizeList] <;> omega)

/-- Reference denotation of the `seq` body. -/
def runL (d : List Char) : List Rule → Nat → Except PErr (Bool × Nat)
  | [], p => .ok (true, p)
  | r :: rest, p =>
      (match runR d r p with
       | .ok (true, p') => runL d rest p'
       | .ok (false, p') => .ok (false, p')
       | .error e => .error e)
termination_by rs _ => 2 * sizeList rs + 1
decreasing_by all_goals first
  | omega
  | (simp [size, sizeList] <;> omega)

/-- Reference denotation of the sequence of must-wrapped rules. -/
def runML (d : List Char) : List Rule → Nat → Except PErr (Bool × Nat)
  | [], p => .ok (true, p)
  | r :: rest, p =>
      (match runR d (.must1 r) p with
       | .ok (true, p') => runML d rest p'
       | .ok (false, p') => .ok (false, p')
       | .error e => .error e)
termination_by rs _ => 2 * sizeList rs + 1
decreasing_by all_goals first
  | omega
  | (simp [size, sizeList] <;> omega)

end

/-- Agreement between the reference denotation and an engine result whose
match started at position `entry` under rewind mode `M`: same success flag,
same raised error, same end position on success; on failure the engine is at
the raw reference position under `dontcare` and back at the entry position
otherwise. -/
def AgreeR {σ : Type} (M : RewindMode) (entry : Nat) :
    Except PErr (Bool × Nat) → Res σ → Prop
  | .ok (true, p), .ok (true, st) => st.pos = p
  | .ok (false, p), .ok (false, st) =>
      st.pos = if M = .dontcare then p else entry
  | .error e, .error e2 => e2 = e
  | _, _ => False

/-- Agreement for the bodies of rule sequences (no mark of their own): on a
failed element the raw position is only guaranteed under `dontcare`. -/
def AgreeL {σ : Type} (M : RewindMode) :
    Except PErr (Bool × Nat) → Res σ → Prop
  | .ok (true, p), .ok (true, st) => st.pos = p
  | .ok (false, p), .ok (false, st) => M = .dontcare → st.pos = p
  | .error e, .error e2 => e2 = e
  | _, _ => False

/-- The user state for the demonstration runs: a log of the ranges passed to
the Action hook, newest first. -/
abbrev ALog : Type := List (Nat × Nat)

/-- Demonstration hooks: the Action hook logs the matched range; the raise
hook is the default one (raises, never returns normally). -/
def logHooks : Hooks ALog :=
  ⟨fun _ b e s => (b, e) :: s, fun r st => defaultRaise r st⟩

/-- Hooks whose raise hook misbehaves: it returns normally with `false`
instead of raising, contrary to the raise contract. -/
def okHooks : Hooks ALog :=
  ⟨fun _ b e s => (b, e) :: s, fun _ st => .ok (false, st)⟩

/-- Initial engine state at position 0 with an empty log. -/
def st0 : St ALog := ⟨0, [], []⟩

/-- The outcome of a match as seen by the caller: the raised error, or the
boolean result with the state forgotten. -/
def outcome {σ : Type} : Res σ → Except PErr Bool
  | .ok (b, _) => .ok b
  | .error e => .error e


theorem size_pos (r : Rule) : 1 ≤ size r := by
  cases r <;> simp [size] <;> omega

theorem runMark_ok_true {σ : Type} (M : RewindMode) (e : Nat) (res : Res σ)
    (st : St σ) : runMark M e res = .ok (true, st) ↔ res = .ok (true, st) := by
  rcases res with e2 | ⟨b, st1⟩
  · simp [runMark]
  · cases b <;> simp [runMark]

theorem agreeL_to_agreeR {σ : Type} (M : RewindMode) (entry : Nat)
    (res : Except PErr (Bool × Nat)) (em : Res σ)
    (h : AgreeL (nextMode M) res em) :
    AgreeR M entry res (runMark M entry em) := by
  rcases res with e | ⟨b, p⟩ <;> rcases em with e2 | ⟨b2, st⟩
  · simpa [AgreeR, runMark] using h
  · cases b2 <;> simp_all [AgreeL, AgreeR, runMark]
  · cases b <;> simp_all [AgreeL, AgreeR, runMark]
  · cases b <;> cases b2 <;> cases M <;>
      simp_all [AgreeL, AgreeR, runMark, nextMode]

set_option maxHeartbeats 1000000 in
theorem agree_main {σ : Type} (H : Hooks σ) (d : List Char)
    (hr : ∀ r st, H.raiseHook r st = defaultRaise r st) :
    ∀ n : Nat,
      (∀ r A M (st : St σ), size r ≤ n →
        AgreeR M st.pos (runR d r st.pos) (matchR H d r A M st)) ∧
      (∀ r A M (st : St σ), size r ≤ n →
        AgreeR M st.pos (runR d r st.pos) (controlMatch H d r A M st)) ∧
      (∀ rs A M (st : St σ), sizeList rs ≤ n →
        AgreeL M (runL d rs st.pos) (matchList H d rs A M st)) ∧
      (∀ rs A M (st : St σ), sizeList rs ≤ n →
        AgreeL M (runML d rs st.pos) (matchMustList H d rs A M st)) := by
  intro n
  induction n using Nat.strong_induction_on with
  | _ n IH =>
    have hM : ∀ r A M (st : St σ), size r ≤ n →
        AgreeR M st.pos (runR d r st.pos) (matchR H d r A M st) := by
      intro r A M st hle
      cases r with
      | success => simp [matchR, runR, AgreeR]
      | one c =>
          simp only [matchR, runR]
          by_cases h1 : st.pos < d.length
          · rw [dif_pos h1, dif_pos h1]
            split_ifs with h2 <;> simp [AgreeR]
          · rw [dif_neg h1, dif_neg h1]; simp [AgreeR]
      | any =>
          simp only [matchR, runR]
          by_cases h1 : st.pos < d.length
          · simp [h1, AgreeR]
          · simp [h1, AgreeR]
      | eof =>
          simp only [matchR, runR]
          by_cases h1 : d.length ≤ st.pos
          · simp [h1, AgreeR]
          · simp [h1, AgreeR]
      | seq rs =>
          have hlt : sizeList rs < n := by
            simp [size] at hle; omega
          obtain ⟨-, -, ih3, -⟩ := IH (sizeList rs) hlt
          simp only [matchR, runR]
          exact agreeL_to_agreeR M st.pos _ _
            (ih3 rs A (nextMode M) st (Nat.le_refl _))
      | at1 r1 =>
          have hlt : size r1 < n := by simp [size] at hle; omega
          obtain ⟨-, ih2, -, -⟩ := IH (size r1) hlt
          have hsub := ih2 r1 .nothing .active st (Nat.le_refl _)
          simp only [matchR, runR]
          rcases hX : runR d r1 st.pos with e | ⟨b, p⟩ <;>
            rcases hY : controlMatch H d r1 .nothing .active st with e2 | ⟨b2, st1⟩ <;>
            rw [hX, hY] at hsub
          · simpa [AgreeR] using hsub
          · cases b2 <;> simp [AgreeR] at hsub
          · cases b <;> simp [AgreeR] at hsub
          · cases b <;> cases b2 <;> simp_all [AgreeR]
      | atN rs =>
          match rs with
          | [] => simp [matchR, runR, AgreeR]
          | [r1] =>
              have hlt : size (Rule.at1 r1) < n := by
                simp [size, sizeList] at hle ⊢; omega
              obtain ⟨ih1, -, -, -⟩ := IH (size (Rule.at1 r1)) hlt
              have h := ih1 (.at1 r1) A M st (Nat.le_refl _)
              simp only [matchR, runR] at h ⊢
              exact h
          | r1 :: r2 :: rest =>
              have hlt : size (Rule.seq (r1 :: r2 :: rest)) < n := by
                simp [size, sizeList] at hle ⊢; omega
              obtain ⟨-, ih2, -, -⟩ := IH (size (Rule.seq (r1 :: r2 :: rest))) hlt
              have hsub := ih2 (.seq (r1 :: r2 :: rest)) .nothing .active st (Nat.le_refl _)
              simp only [runR] at hsub
              simp only [matchR, runR]
              rcases hX : runL d (r1 :: r2 :: rest) st.pos with e | ⟨b, p⟩ <;>
                rcases hY : controlMatch H d (.seq (r1 :: r2 :: rest)) .nothing .active st with e2 | ⟨b2, st1⟩ <;>
                rw [hX] at hsub <;> rw [hY] at hsub
              · simpa [AgreeR] using hsub
              · cases b2 <;> simp [AgreeR] at hsub
              · cases b <;> simp [AgreeR] at hsub
              · cases b <;> cases b2 <;> simp_all [AgreeR]
      | not_at r1 =>
          have hlt : size r1 < n := by simp [size] at hle; omega
          obtain ⟨-, ih2, -, -⟩ := IH (size r1) hlt
          have hsub := ih2 r1 .nothing .active st (Nat.le_refl _)
          simp only [matchR, runR]
          rcases hX : runR d r1 st.pos with e | ⟨b, p⟩ <;>
            rcases hY : controlMatch H d r1 .nothing .active st with e2 | ⟨b2, st1⟩ <;>
            rw [hX, hY] at hsub
          · simpa [AgreeR] using hsub
          · cases b2 <;> simp [AgreeR] at hsub
          · cases b <;> simp [AgreeR] at hsub
          · cases b <;> cases b2 <;> simp_all [AgreeR]
      | must1 r1 =>
          have hlt : size r1 < n := by simp [size] at hle; omega
          obtain ⟨-, ih2, -, -⟩ := IH (size r1) hlt
          have hsub := ih2 r1 A .dontcare st (Nat.le_refl _)
          simp only [matchR, runR]
          rcases hX : runR d r1 st.pos with e | ⟨b, p⟩ <;>
            rcases hY : controlMatch H d r1 A .dontcare st with e2 | ⟨b2, st1⟩ <;>
            rw [hX, hY] at hsub
          · simpa [AgreeR] using hsub
          · cases b2 <;> simp [AgreeR] at hsub
          · cases b <;> simp [AgreeR] at hsub
          · cases b <;> cases b2 <;> simp_all [AgreeR, hr, defaultRaise]
      | mustN rs =>
          match rs with
          | [] => simp [matchR, runR, matchMustList, runML, runMark, AgreeR]
          | [r1] =>
              have hlt : size (Rule.must1 r1) < n := by
                simp [size, sizeList] at hle ⊢; omega
              obtain ⟨ih1, -, -, -⟩ := IH (size (Rule.must1 r1)) hlt
              have h := ih1 (.must1 r1) A M st (Nat.le_refl _)
              simp only [matchR, runR] at h ⊢
              exact h
          | r1 :: r2 :: rest =>
              have hlt : sizeList (r1 :: r2 :: rest) < n := by
                simp [size] at hle; omega
              obtain ⟨-, -, -, ih4⟩ := IH (sizeList (r1 :: r2 :: rest)) hlt
              simp only [matchR, runR]
              exact agreeL_to_agreeR M st.pos _ _
                (ih4 (r1 :: r2 :: rest) A (nextMode M) st (Nat.le_refl _))
    have hC : ∀ r A M (st : St σ), size r ≤ n →
        AgreeR M st.pos (runR d r st.pos) (controlMatch H d r A M st) := by
      intro r A M st hle
      have hsub := hM r A M { st with calls := r :: st.calls } hle
      rcases hY : matchR H d r A M { st with calls := r :: st.calls } with e | ⟨b, st1⟩ <;>
        rw [hY] at hsub
      · have hcm : controlMatch H d r A M st = .error e := by
          simp only [controlMatch, hY]
        rw [hcm]; exact hsub
      · cases b
        · have hcm : controlMatch H d r A M st = .ok (false, st1) := by
            simp only [controlMatch, hY]
          rw [hcm]; exact hsub
        · by_cases hA : A = .action ∧ isLeaf r = true
          · have hcm : controlMatch H d r A M st =
                .ok (true, { st1 with user := H.act r st.pos st1.pos st1.user }) := by
              simp only [controlMatch, hY]
              rw [if_pos hA]
            rw [hcm]
            rcases hX : runR d r st.pos with e2 | ⟨b2, p⟩ <;> rw [hX] at hsub
            · simp [AgreeR] at hsub
            · cases b2
              · simp [AgreeR] at hsub
              · simpa [AgreeR] using hsub
          · have hcm : controlMatch H d r A M st = .ok (true, st1) := by
              simp only [controlMatch, hY]
              rw [if_neg hA]
            rw [hcm]; exact hsub
    have hL : ∀ rs A M (st : St σ), sizeList rs ≤ n →
        AgreeL M (runL d rs st.pos) (matchList H d rs A M st) := by
      intro rs A M st hle
      cases rs with
      | nil => simp [matchList, runL, AgreeL]
      | cons r rest =>
          have h1 : size r ≤ n := by simp [sizeList] at hle; omega
          have hsub := hC r A M st h1
          simp only [matchList, runL]
          rcases hY : controlMatch H d r A M st with e | ⟨b, st1⟩ <;>
            rcases hX : runR d r st.pos with e2 | ⟨b2, p⟩ <;>
            rw [hX, hY] at hsub
          · simpa [AgreeL] using (by simpa [AgreeR] using hsub : e = e2)
          · cases b2 <;> simp [AgreeR] at hsub
          · cases b <;> simp [AgreeR] at hsub
          · cases b <;> cases b2
            · simp only [AgreeL]
              intro hMd
              simp [AgreeR, hMd] at hsub
              exact hsub
            · simp [AgreeR] at hsub
            · simp [AgreeR] at hsub
            · have hpe : st1.pos = p := by simpa [AgreeR] using hsub
              have hlt : sizeList rest < n := by simp [sizeList] at hle; omega
              obtain ⟨-, -, ih3, -⟩ := IH (sizeList rest) hlt
              have := ih3 rest A M st1 (Nat.le_refl _)
              rw [hpe] at this
              exact this
    have hML : ∀ rs A M (st : St σ), sizeList rs ≤ n →
        AgreeL M (runML d rs st.pos) (matchMustList H d rs A M st) := by
      intro rs A M st hle
      cases rs with
      | nil => simp [matchMustList, runML, AgreeL]
      | cons r rest =>
          have h1 : size (Rule.must1 r) ≤ n := by
            simp [size, sizeList] at hle ⊢; omega
          have hsub := hC (.must1 r) A M st h1
          simp only [matchMustList, runML]
          rcases hY : controlMatch H d (.must1 r) A M st with e | ⟨b, st1⟩ <;>
            rcases hX : runR d (.must1 r) st.pos with e2 | ⟨b2, p⟩ <;>
            rw [hX, hY] at hsub
          · simpa [AgreeL] using (by simpa [AgreeR] using hsub : e = e2)
          · cases b2 <;> simp [AgreeR] at hsub
          · cases b <;> simp [AgreeR] at hsub
          · cases b <;> cases b2
            · simp only [AgreeL]
              intro hMd
              simp [AgreeR, hMd] at hsub
              exact hsub
            · simp [AgreeR] at hsub
            · simp [AgreeR] at hsub
            · have hpe : st1.pos = p := by simpa [AgreeR] using hsub
              have hlt : sizeList rest < n := by simp [sizeList] at hle; omega
              obtain ⟨-, -, -, ih4⟩ := IH (sizeList rest) hlt
              have := ih4 rest A M st1 (Nat.le_refl _)
              rw [hpe] at this
              exact this
    exact ⟨hM, hC, hL, hML⟩

theorem runMark_error {σ : Type} (M : RewindMode) (e0 : Nat) (res : Res σ)
    (e : PErr) : runMark M e0 res = .error e ↔ res = .error e := by
  rcases res with e2 | ⟨b, st1⟩
  · simp [runMark]
  · cases b <;> simp [runMark]

theorem matchR_atN_nil {σ : Type} (H : Hooks σ) (d : List Char)
    (A : ApplyMode) (M : RewindMode) (st : St σ) :
    matchR H d (.atN []) A M st = .ok (true, st) := by
  simp only [matchR]

theorem matchR_atN_one {σ : Type} (H : Hooks σ) (d : List Char) (r : Rule)
    (A : ApplyMode) (M : RewindMode) (st : St σ) :
    matchR H d (.atN [r]) A M st = matchR H d (.at1 r) A M st := by
  simp only [matchR]

theorem matchR_atN_big {σ : Type} (H : Hooks σ) (d : List Char)
    (rs : List Rule) (hlen : 2 ≤ rs.length)
    (A : ApplyMode) (M : RewindMode) (st : St σ) :
    matchR H d (.atN rs) A M st = matchR H d (.at1 (.seq rs)) A M st := by
  rcases rs with - | ⟨r1, rs2⟩
  · simp at hlen
  · rcases rs2 with - | ⟨r2, rest⟩
    · simp at hlen
    · simp only [matchR]

theorem matchR_mustN_one {σ : Type} (H : Hooks σ) (d : List Char) (r : Rule)
    (A : ApplyMode) (M : RewindMode) (st : St σ) :
    matchR H d (.mustN [r]) A M st = matchR H d (.must1 r) A M st := by
  simp only [matchR]

theorem matchR_mustN_big {σ : Type} (H : Hooks σ) (d : List Char)
    (rs : List Rule) (hlen : rs.length ≠ 1)
    (A : ApplyMode) (M : RewindMode) (st : St σ) :
    matchR H d (.mustN rs) A M st =
      runMark M st.pos (matchMustList H d rs A (nextMode M) st) := by
  rcases rs with - | ⟨r1, rs2⟩
  · simp only [matchR]
  · rcases rs2 with - | ⟨r2, rest⟩
    · simp at hlen
    · simp only [matchR]

theorem matchMustList_eq_matchList {σ : Type} (H : Hooks σ) (d : List Char)
    (rs : List Rule) (A : ApplyMode) (M : RewindMode) (st : St σ) :
    matchMustList H d rs A M st =
      matchList H d (rs.map Rule.must1) A M st := by
  induction rs generalizing st with
  | nil => simp [matchMustList, matchList]
  | cons r rest ih =>
      simp only [matchMustList, matchList, List.map]
      rcases controlMatch H d (.must1 r) A M st with e | ⟨b, st1⟩
      · rfl
      · cases b
        · rfl
        · exact ih st1

theorem matchMustList_append {σ : Type} (H : Hooks σ) (d : List Char)
    (xs ys : List Rule) (A : ApplyMode) (M : RewindMode) (st st1 : St σ)
    (h : matchMustList H d xs A M st = .ok (true, st1)) :
    matchMustList H d (xs ++ ys) A M st = matchMustList H d ys A M st1 := by
  induction xs generalizing st with
  | nil =>
      simp only [matchMustList] at h
      rcases h with ⟨rfl⟩
      simp
  | cons x rest ih =>
      simp only [matchMustList, List.cons_append] at h ⊢
      rcases hY : controlMatch H d (.must1 x) A M st with e | ⟨b, st2⟩ <;>
        rw [hY] at h
      · exact absurd h (by simp)
      · cases b
        · exact absurd h (by simp)
        · exact ih st2 h

set_option maxHeartbeats 1000000 in
theorem noact_main {σ : Type} (H : Hooks σ) (d : List Char)
    (hr : ∀ r st, H.raiseHook r st = defaultRaise r st) :
    ∀ n : Nat,
      (∀ r M (st : St σ) b st2, size r ≤ n →
        matchR H d r .nothing M st = .ok (b, st2) → st2.user = st.user) ∧
      (∀ r M (st : St σ) b st2, size r ≤ n →
        controlMatch H d r .nothing M st = .ok (b, st2) → st2.user = st.user) ∧
      (∀ rs M (st : St σ) b st2, sizeList rs ≤ n →
        matchList H d rs .nothing M st = .ok (b, st2) → st2.user = st.user) ∧
      (∀ rs M (st : St σ) b st2, sizeList rs ≤ n →
        matchMustList H d rs .nothing M st = .ok (b, st2) → st2.user = st.user) := by
  intro n
  induction n using Nat.strong_induction_on with
  | _ n IH =>
    have hM : ∀ r M (st : St σ) b st2, size r ≤ n →
        matchR H d r .nothing M st = .ok (b, st2) → st2.user = st.user := by
      intro r M st b st2 hle h
      cases r with
      | success =>
          simp only [matchR] at h
          rcases h with ⟨rfl⟩
          rfl
      | one c =>
          simp only [matchR] at h
          split_ifs at h <;> (rcases h with ⟨rfl⟩; rfl)
      | any =>
          simp only [matchR] at h
          split_ifs at h <;> (rcases h with ⟨rfl⟩; rfl)
      | eof =>
          simp only [matchR] at h
          split_ifs at h <;> (rcases h with ⟨rfl⟩; rfl)
      | seq rs =>
          have hlt : sizeList rs < n := by simp [size] at hle; omega
          obtain ⟨-, -, ih3, -⟩ := IH (sizeList rs) hlt
          simp only [matchR] at h
          rcases hres : matchList H d rs .nothing (nextMode M) st with e | ⟨b2, st3⟩ <;>
            rw [hres] at h
          · simp [runMark] at h
          · cases b2
            · simp only [runMark] at h
              rcases h with ⟨rfl⟩
              have husr := ih3 rs (nextMode M) st false st3 (Nat.le_refl _) hres
              split <;> simpa using husr
            · simp only [runMark] at h
              rcases h with ⟨rfl⟩
              simpa using ih3 _ _ _ _ _ (Nat.le_refl _) hres
      | at1 r1 =>
          have hlt : size r1 < n := by simp [size] at hle; omega
          obtain ⟨-, ih2, -, -⟩ := IH (size r1) hlt
          simp only [matchR] at h
          rcases hres : controlMatch H d r1 .nothing .active st with e | ⟨b2, st3⟩ <;>
            rw [hres] at h
          · simp at h
          · rcases h with ⟨rfl⟩
            simpa using ih2 _ _ _ _ _ (Nat.le_refl _) hres
      | not_at r1 =>
          have hlt : size r1 < n := by simp [size] at hle; omega
          obtain ⟨-, ih2, -, -⟩ := IH (size r1) hlt
          simp only [matchR] at h
          rcases hres : controlMatch H d r1 .nothing .active st with e | ⟨b2, st3⟩ <;>
            rw [hres] at h
          · simp at h
          · rcases h with ⟨rfl⟩
            simpa using ih2 _ _ _ _ _ (Nat.le_refl _) hres
      | must1 r1 =>
          have hlt : size r1 < n := by simp [size] at hle; omega
          obtain ⟨-, ih2, -, -⟩ := IH (size r1) hlt
          simp only [matchR] at h
          rcases hres : controlMatch H d r1 .nothing .dontcare st with e | ⟨b2, st3⟩ <;>
            rw [hres] at h
          · simp at h
          · cases b2
            · simp [hr, defaultRaise] at h
            · rcases h with ⟨rfl⟩
              simpa using ih2 _ _ _ _ _ (Nat.le_refl _) hres
      | atN rs =>
          match rs with
          | [] =>
              rw [matchR_atN_nil] at h
              rcases h with ⟨rfl⟩
              rfl
          | [r1] =>
              rw [matchR_atN_one] at h
              have hlt : size (Rule.at1 r1) < n := by
                simp [size, sizeList] at hle ⊢; omega
              exact (IH (size (Rule.at1 r1)) hlt).1 (.at1 r1) M st b st2
                (Nat.le_refl _) h
          | r1 :: r2 :: rest =>
              have hlt : size (Rule.seq (r1 :: r2 :: rest)) < n := by
                simp [size, sizeList] at hle ⊢; omega
              obtain ⟨-, ih2, -, -⟩ := IH _ hlt
              simp only [matchR] at h
              rcases hres : controlMatch H d (.seq (r1 :: r2 :: rest)) .nothing .active st with e | ⟨b2, st3⟩ <;>
                rw [hres] at h
              · simp at h
              · rcases h with ⟨rfl⟩
                simpa using ih2 _ _ _ _ _ (Nat.le_refl _) hres
      | mustN rs =>
          match rs with
          | [] =>
              rw [matchR_mustN_big H d _ (by simp)] at h
              simp only [matchMustList] at h
              simp only [runMark] at h
              rcases h with ⟨rfl⟩
              rfl
          | [r1] =>
              rw [matchR_mustN_one] at h
              have hlt : size (Rule.must1 r1) < n := by
                simp [size, sizeList] at hle ⊢; omega
              exact (IH (size (Rule.must1 r1)) hlt).1 (.must1 r1) M st b st2
                (Nat.le_refl _) h
          | r1 :: r2 :: rest =>
              rw [matchR_mustN_big H d _ (by simp)] at h
              have hlt : sizeList (r1 :: r2 :: rest) < n := by
                simp [size] at hle; omega
              obtain ⟨-, -, -, ih4⟩ := IH (sizeList (r1 :: r2 :: rest)) hlt
              rcases hres : matchMustList H d (r1 :: r2 :: rest) .nothing (nextMode M) st with e | ⟨b2, st3⟩ <;>
                rw [hres] at h
              · simp [runMark] at h
              · cases b2
                · simp only [runMark] at h
                  rcases h with ⟨rfl⟩
                  have husr := ih4 _ (nextMode M) st false st3 (Nat.le_refl _) hres
                  split <;> simpa using husr
                · simp only [runMark] at h
                  rcases h with ⟨rfl⟩
                  simpa using ih4 _ _ _ _ _ (Nat.le_refl _) hres
    have hC : ∀ r M (st : St σ) b st2, size r ≤ n →
        controlMatch H d r .nothing M st = .ok (b, st2) → st2.user = st.user := by
      intro r M st b st2 hle h
      simp only [controlMatch] at h
      rcases hY : matchR H d r .nothing M { st with calls := r :: st.calls } with e | ⟨b2, st3⟩ <;>
        rw [hY] at h
      · simp at h
      · have husr : st3.user = st.user :=
          hM r M { st with calls := r :: st.calls } b2 st3 hle hY
        cases b2
        · rcases h with ⟨rfl⟩
          exact husr
        · simp only [show (ApplyMode.nothing = ApplyMode.action ∧ isLeaf r = true) = False by
            simp] at h
          rcases h with ⟨rfl⟩
          exact husr
    have hL : ∀ rs M (st : St σ) b st2, sizeList rs ≤ n →
        matchList H d rs .nothing M st = .ok (b, st2) → st2.user = st.user := by
      intro rs M st b st2 hle h
      cases rs with
      | nil =>
          simp only [matchList] at h
          rcases h with ⟨rfl⟩
          rfl
      | cons r rest =>
          have h1 : size r ≤ n := by simp [sizeList] at hle; omega
          simp only [matchList] at h
          rcases hY : controlMatch H d r .nothing M st with e | ⟨b2, st3⟩ <;>
            rw [hY] at h
          · simp at h
          · have husr : st3.user = st.user := hC r M st b2 st3 h1 hY
            cases b2
            · rcases h with ⟨rfl⟩
              exact husr
            · have hlt : sizeList rest < n := by simp [sizeList] at hle; omega
              obtain ⟨-, -, ih3, -⟩ := IH (sizeList rest) hlt
              exact (ih3 rest M st3 b st2 (Nat.le_refl _) h).trans husr
    have hML : ∀ rs M (st : St σ) b st2, sizeList rs ≤ n →
        matchMustList H d rs .nothing M st = .ok (b, st2) → st2.user = st.user := by
      intro rs M st b st2 hle h
      cases rs with
      | nil =>
          simp only [matchMustList] at h
          rcases h with ⟨rfl⟩
          rfl
      | cons r rest =>
          have h1 : size (Rule.must1 r) ≤ n := by
            simp [size, sizeList] at hle ⊢; omega
          simp only [matchMustList] at h
          rcases hY : controlMatch H d (.must1 r) .nothing M st with e | ⟨b2, st3⟩ <;>
            rw [hY] at h
          · simp at h
          · have husr : st3.user = st.user := hC (.must1 r) M st b2 st3 h1 hY
            cases b2
            · rcases h with ⟨rfl⟩
              exact husr
            · have hlt : sizeList rest < n := by simp [sizeList] at hle; omega
              obtain ⟨-, -, -, ih4⟩ := IH (sizeList rest) hlt
              exact (ih4 rest M st3 b st2 (Nat.le_refl _) h).trans husr
    exact ⟨hM, hC, hL, hML⟩

set_option maxHeartbeats 1000000 in
theorem calls_main {σ : Type} (H : Hooks σ) (d : List Char)
    (hr : ∀ r st, H.raiseHook r st = defaultRaise r st) :
    ∀ n : Nat,
      (∀ r A M (st : St σ) b st2, size r ≤ n →
        matchR H d r A M st = .ok (b, st2) →
          ∃ l, st2.calls = l ++ st.calls) ∧
      (∀ r A M (st : St σ) b st2, size r ≤ n →
        controlMatch H d r A M st = .ok (b, st2) →
          ∃ l, st2.calls = l ++ (r :: st.calls)) ∧
      (∀ rs A M (st : St σ) b st2, sizeList rs ≤ n →
        matchList H d rs A M st = .ok (b, st2) →
          ∃ l, st2.calls = l ++ st.calls) ∧
      (∀ rs A M (st : St σ) b st2, sizeList rs ≤ n →
        matchMustList H d rs A M st = .ok (b, st2) →
          ∃ l, st2.calls = l ++ st.calls) := by
  intro n
  induction n using Nat.strong_induction_on with
  | _ n IH =>
    have hM : ∀ r A M (st : St σ) b st2, size r ≤ n →
        matchR H d r A M st = .ok (b, st2) →
          ∃ l, st2.calls = l ++ st.calls := by
      intro r A M st b st2 hle h
      cases r with
      | success =>
          simp only [matchR] at h
          rcases h with ⟨rfl⟩
          exact ⟨[], rfl⟩
      | one c =>
          simp only [matchR] at h
          split_ifs at h <;> (rcases h with ⟨rfl⟩; exact ⟨[], rfl⟩)
      | any =>
          simp only [matchR] at h
          split_ifs at h <;> (rcases h with ⟨rfl⟩; exact ⟨[], rfl⟩)
      | eof =>
          simp only [matchR] at h
          split_ifs at h <;> (rcases h with ⟨rfl⟩; exact ⟨[], rfl⟩)
      | seq rs =>
          have hlt : sizeList rs < n := by simp [size] at hle; omega
          obtain ⟨-, -, ih3, -⟩ := IH (sizeList rs) hlt
          simp only [matchR] at h
          rcases hres : matchList H d rs A (nextMode M) st with e | ⟨b2, st3⟩ <;>
            rw [hres] at h
          · simp [runMark] at h
          · cases b2
            · simp only [runMark] at h
              rcases h with ⟨rfl⟩
              obtain ⟨l, hl⟩ := ih3 _ _ _ _ _ _ (Nat.le_refl _) hres
              refine ⟨l, ?_⟩
              split <;> simpa using hl
            · simp only [runMark] at h
              rcases h with ⟨rfl⟩
              simpa using ih3 _ _ _ _ _ _ (Nat.le_refl _) hres
      | at1 r1 =>
          have hlt : size r1 < n := by simp [size] at hle; omega
          obtain ⟨-, ih2, -, -⟩ := IH (size r1) hlt
          simp only [matchR] at h
          rcases hres : controlMatch H d r1 .nothing .active st with e | ⟨b2, st3⟩ <;>
            rw [hres] at h
          · simp at h
          · rcases h with ⟨rfl⟩
            obtain ⟨l, hl⟩ := ih2 _ _ _ _ _ _ (Nat.le_refl _) hres
            exact ⟨l ++ [r1], by simpa [hl] using List.append_cons l r1 st.calls⟩
      | not_at r1 =>
          have hlt : size r1 < n := by simp [size] at hle; omega
          obtain ⟨-, ih2, -, -⟩ := IH (size r1) hlt
          simp only [matchR] at h
          rcases hres : controlMatch H d r1 .nothing .active st with e | ⟨b2, st3⟩ <;>
            rw [hres] at h
          · simp at h
          · rcases h with ⟨rfl⟩
            obtain ⟨l, hl⟩ := ih2 _ _ _ _ _ _ (Nat.le_refl _) hres
            exact ⟨l ++ [r1], by simpa [hl] using List.append_cons l r1 st.calls⟩
      | must1 r1 =>
          have hlt : size r1 < n := by simp [size] at hle; omega
          obtain ⟨-, ih2, -, -⟩ := IH (size r1) hlt
          simp only [matchR] at h
          rcases hres : controlMatch H d r1 A .dontcare st with e | ⟨b2, st3⟩ <;>
            rw [hres] at h
          · simp at h
          · cases b2
            · simp [hr, defaultRaise] at h
            · rcases h with ⟨rfl⟩
              obtain ⟨l, hl⟩ := ih2 _ _ _ _ _ _ (Nat.le_refl _) hres
              exact ⟨l ++ [r1], by simpa [hl] using List.append_cons l r1 st.calls⟩
      | atN rs =>
          match rs with
          | [] =>
              rw [matchR_atN_nil] at h
              rcases h with ⟨rfl⟩
              exact ⟨[], rfl⟩
          | [r1] =>
              rw [matchR_atN_one] at h
              have hlt : size (Rule.at1 r1) < n := by
                simp [size, sizeList] at hle ⊢; omega
              exact (IH (size (Rule.at1 r1)) hlt).1 _ _ _ _ _ _ (Nat.le_refl _) h
          | r1 :: r2 :: rest =>
              have hlt : size (Rule.seq (r1 :: r2 :: rest)) < n := by
                simp [size, sizeList] at hle ⊢; omega
              obtain ⟨-, ih2, -, -⟩ := IH _ hlt
              simp only [matchR] at h
              rcases hres : controlMatch H d (.seq (r1 :: r2 :: rest)) .nothing .active st with e | ⟨b2, st3⟩ <;>
                rw [hres] at h
              · simp at h
              · rcases h with ⟨rfl⟩
                obtain ⟨l, hl⟩ := ih2 _ _ _ _ _ _ (Nat.le_refl _) hres
                exact ⟨l ++ [Rule.seq (r1 :: r2 :: rest)],
                  by simpa [hl] using List.append_cons l _ st.calls⟩
      | mustN rs =>
          match rs with
          | [] =>
              rw [matchR_mustN_big H d _ (by simp)] at h
              simp only [matchMustList, runMark] at h
              rcases h with ⟨rfl⟩
              exact ⟨[], rfl⟩
          | [r1] =>
              rw [matchR_mustN_one] at h
              have hlt : size (Rule.must1 r1) < n := by
                simp [size, sizeList] at hle ⊢; omega
              exact (IH (size (Rule.must1 r1)) hlt).1 _ _ _ _ _ _ (Nat.le_refl _) h
          | r1 :: r2 :: rest =>
              rw [matchR_mustN_big H d _ (by simp)] at h
              have hlt : sizeList (r1 :: r2 :: rest) < n := by
                simp [size] at hle; omega
              obtain ⟨-, -, -, ih4⟩ := IH (sizeList (r1 :: r2 :: rest)) hlt
              rcases hres : matchMustList H d (r1 :: r2 :: rest) A (nextMode M) st with e | ⟨b2, st3⟩ <;>
                rw [hres] at h
              · simp [runMark] at h
              · cases b2
                · simp only [runMark] at h
                  rcases h with ⟨rfl⟩
                  obtain ⟨l, hl⟩ := ih4 _ _ _ _ _ _ (Nat.le_refl _) hres
                  refine ⟨l, ?_⟩
                  split <;> simpa using hl
                · simp only [runMark] at h
                  rcases h with ⟨rfl⟩
                  simpa using ih4 _ _ _ _ _ _ (Nat.le_refl _) hres
    have hC : ∀ r A M (st : St σ) b st2, size r ≤ n →
        controlMatch H d r A M st = .ok (b, st2) →
          ∃ l, st2.calls = l ++ (r :: st.calls) := by
      intro r A M st b st2 hle h
      rcases hY : matchR H d r A M { st with calls := r :: st.calls } with e | ⟨b2, st3⟩
      · simp only [controlMatch, hY] at h
        exact absurd h (by simp)
      · obtain ⟨l, hl⟩ := hM r A M { st with calls := r :: st.calls } b2 st3 hle hY
        cases b2 <;> simp only [controlMatch, hY] at h
        · rcases h with ⟨rfl⟩
          exact ⟨l, hl⟩
        · split at h <;> (rcases h with ⟨rfl⟩; exact ⟨l, hl⟩)
    have hL : ∀ rs A M (st : St σ) b st2, sizeList rs ≤ n →
        matchList H d rs A M st = .ok (b, st2) →
          ∃ l, st2.calls = l ++ st.calls := by
      intro rs A M st b st2 hle h
      cases rs with
      | nil =>
          simp only [matchList] at h
          rcases h with ⟨rfl⟩
          exact ⟨[], rfl⟩
      | cons r rest =>
          have h1 : size r ≤ n := by simp [sizeList] at hle; omega
          simp only [matchList] at h
          rcases hY : controlMatch H d r A M st with e | ⟨b2, st3⟩ <;>
            rw [hY] at h
          · simp at h
          · obtain ⟨l, hl⟩ := hC r A M st b2 st3 h1 hY
            have hl2 : st3.calls = (l ++ [r]) ++ st.calls := by
              simpa [hl] using List.append_cons l r st.calls
            cases b2
            · rcases h with ⟨rfl⟩
              exact ⟨l ++ [r], hl2⟩
            · have hlt : sizeList rest < n := by simp [sizeList] at hle; omega
              obtain ⟨-, -, ih3, -⟩ := IH (sizeList rest) hlt
              obtain ⟨l3, hl3⟩ := ih3 _ _ _ _ _ _ (Nat.le_refl _) h
              exact ⟨l3 ++ (l ++ [r]), by simp [hl3, hl2]⟩
    have hML : ∀ rs A M (st : St σ) b st2, sizeList rs ≤ n →
        matchMustList H d rs A M st = .ok (b, st2) →
          ∃ l, st2.calls = l ++ st.calls := by
      intro rs A M st b st2 hle h
      cases rs with
      | nil =>
          simp only [matchMustList] at h
          rcases h with ⟨rfl⟩
          exact ⟨[], rfl⟩
      | cons r rest =>
          have h1 : size (Rule.must1 r) ≤ n := by
            simp [size, sizeList] at hle ⊢; omega
          simp only [matchMustList] at h
          rcases hY : controlMatch H d (.must1 r) A M st with e | ⟨b2, st3⟩ <;>
            rw [hY] at h
          · simp at h
          · obtain ⟨l, hl⟩ := hC (.must1 r) A M st b2 st3 h1 hY
            have hl2 : st3.calls = (l ++ [Rule.must1 r]) ++ st.calls := by
              simpa [hl] using List.append_cons l (Rule.must1 r) st.calls
            cases b2
            · rcases h with ⟨rfl⟩
              exact ⟨l ++ [Rule.must1 r], hl2⟩
            · have hlt : sizeList rest < n := by simp [sizeList] at hle; omega
              obtain ⟨-, -, -, ih4⟩ := IH (sizeList rest) hlt
              obtain ⟨l3, hl3⟩ := ih4 _ _ _ _ _ _ (Nat.le_refl _) h
              exact ⟨l3 ++ (l ++ [Rule.must1 r]), by simp [hl3, hl2]⟩
    exact ⟨hM, hC, hL, hML⟩

theorem controlMatch_calls {σ : Type} (H : Hooks σ) (d : List Char)
    (hr : ∀ r st, H.raiseHook r st = defaultRaise r st)
    (r : Rule) (A : ApplyMode) (M : RewindMode) (st : St σ) (b : Bool)
    (st2 : St σ) (h : controlMatch H d r A M st = .ok (b, st2)) :
    ∃ l, st2.calls = l ++ (r :: st.calls) :=
  (calls_main H d hr (size r)).2.1 r A M st b st2 (Nat.le_refl _) h

theorem matchList_calls {σ : Type} (H : Hooks σ) (d : List Char)
    (hr : ∀ r st, H.raiseHook r st = defaultRaise r st)
    (rs : List Rule) (A : ApplyMode) (M : RewindMode) (st : St σ) (b : Bool)
    (st2 : St σ) (h : matchList H d rs A M st = .ok (b, st2)) :
    ∃ l, st2.calls = l ++ st.calls :=
  (calls_main H d hr (sizeList rs)).2.2.1 rs A M st b st2 (Nat.le_refl _) h

theorem matchMustList_calls {σ : Type} (H : Hooks σ) (d : List Char)
    (hr : ∀ r st, H.raiseHook r st = defaultRaise r st)
    (rs : List Rule) (A : ApplyMode) (M : RewindMode) (st : St σ) (b : Bool)
    (st2 : St σ) (h : matchMustList H d rs A M st = .ok (b, st2)) :
    ∃ l, st2.calls = l ++ st.calls :=
  (calls_main H d hr (sizeList rs)).2.2.2 rs A M st b st2 (Nat.le_refl _) h

theorem matchList_mem {σ : Type} (H : Hooks σ) (d : List Char)
    (hr : ∀ r st, H.raiseHook r st = defaultRaise r st) :
    ∀ (rs : List Rule) (r : Rule) (A : ApplyMode) (M : RewindMode)
      (st st2 : St σ), r ∈ rs →
      matchList H d rs A M st = .ok (true, st2) → r ∈ st2.calls := by
  intro rs
  induction rs with
  | nil =>
      intro r A M st st2 hmem
      simp at hmem
  | cons r0 rest ih =>
      intro r A M st st2 hmem h
      simp only [matchList] at h
      rcases hY : controlMatch H d r0 A M st with e | ⟨b2, st3⟩ <;>
        rw [hY] at h
      · simp at h
      · cases b2
        · simp at h
        · rcases List.mem_cons.mp hmem with heq | hmem2
          · subst heq
            obtain ⟨l, hl⟩ := controlMatch_calls H d hr r A M st true st3 hY
            obtain ⟨l2, hl2⟩ := matchList_calls H d hr rest A M st3 true st2 h
            rw [hl2, hl]
            simp
          · exact ih r A M st3 st2 hmem2 h

theorem matchMustList_mem {σ : Type} (H : Hooks σ) (d : List Char)
    (hr : ∀ r st, H.raiseHook r st = defaultRaise r st) :
    ∀ (rs : List Rule) (r : Rule) (A : ApplyMode) (M : RewindMode)
      (st st2 : St σ), r ∈ rs →
      matchMustList H d rs A M st = .ok (true, st2) →
        Rule.must1 r ∈ st2.calls := by
  intro rs
  induction rs with
  | nil =>
      intro r A M st st2 hmem
      simp at hmem
  | cons r0 rest ih =>
      intro r A M st st2 hmem h
      simp only [matchMustList] at h
      rcases hY : controlMatch H d (.must1 r0) A M st with e | ⟨b2, st3⟩ <;>
        rw [hY] at h
      · simp at h
      · cases b2
        · simp at h
        · rcases List.mem_cons.mp hmem with heq | hmem2
          · subst heq
            obtain ⟨l, hl⟩ := controlMatch_calls H d hr (.must1 r) A M st true st3 hY
            obtain ⟨l2, hl2⟩ := matchMustList_calls H d hr rest A M st3 true st2 h
            rw [hl2, hl]
            simp
          · exact ih r A M st3 st2 hmem2 h

/-- C8: the empty lookahead `at<>` (zero sub-rules) succeeds on every input,
under every apply mode and rewind mode, without consuming input or changing
any state: it is the trivial success rule (`at<> : success`). -/
theorem at_empty_is_trivial_success {σ : Type} (H : Hooks σ) (d : List Char) :
    ∀ (A : ApplyMode) (M : RewindMode) (st : St σ),
      matchR H d (.atN []) A M st = .ok (true, st) :=
  fun A M st => matchR_atN_nil H d A M st

/-- C9: for a pack of at least two rules, `at<R1,...,Rn>` is definitionally
`at< seq<R1,...,Rn> >`: the lookahead is taken over the sequential
composition of the listed rules, so it matches exactly like the single-rule
lookahead applied to the sequence node. -/
theorem at_pack_is_at_of_seq {σ : Type} (H : Hooks σ) (d : List Char) :
    ∀ (rs : List Rule), 2 ≤ rs.length →
      ∀ (A : ApplyMode) (M : RewindMode) (st : St σ),
        matchR H d (.atN rs) A M st = matchR H d (.at1 (.seq rs)) A M st :=
  fun rs hlen A M st => matchR_atN_big H d rs hlen A M st

/-- C9 witness: the pack equality applied to the concrete two-rule pack
`at< one<'a'>, one<'b'> >` on input "ab". -/
theorem at_pack_is_at_of_seq_witness :
    2 ≤ ([Rule.one 'a', Rule.one 'b'] : List Rule).length ∧
      matchR logHooks ['a', 'b'] (.atN [Rule.one 'a', Rule.one 'b'])
          .action .required st0 =
        matchR logHooks ['a', 'b'] (.at1 (.seq [Rule.one 'a', Rule.one 'b']))
          .action .required st0 :=
  ⟨by simp, at_pack_is_at_of_seq logHooks ['a', 'b'] [Rule.one 'a', Rule.one 'b']
    (by simp) .action .required st0⟩

/-- C10: `must<Rule>::match` returns `true` on every path on which it
returns normally: the result of `raise<Rule>::match` is discarded and `true`
is returned unconditionally, so even a raise hook that returned normally
(contrary to its never-returns contract) makes `must` report success. -/
theorem must_true_on_every_normal_return {σ : Type} (H : Hooks σ)
    (d : List Char) :
    ∀ (r : Rule) (A : ApplyMode) (M : RewindMode) (st : St σ) (b : Bool)
      (st2 : St σ),
      matchR H d (.must1 r) A M st = .ok (b, st2) → b = true := by
  intro r A M st b st2 h
  simp only [matchR] at h
  rcases hY : controlMatch H d r A .dontcare st with e | ⟨b2, st3⟩ <;>
    rw [hY] at h
  · simp at h
  · cases b2
    · rcases hz : H.raiseHook r st3 with e2 | ⟨b3, st4⟩ <;> simp only [hz] at h
      · simp at h
      · rcases h with ⟨rfl⟩
        rfl
    · rcases h with ⟨rfl⟩
      rfl

/-- C10 witness: with a misbehaving raise hook that returns `false` normally
instead of raising, `must< one<'a'> >` on input "b" still returns `true`. -/
theorem must_true_on_every_normal_return_witness :
    matchR okHooks ['b'] (.must1 (.one 'a')) .action .active st0 =
        .ok (true, ⟨0, [], [Rule.one 'a']⟩) ∧ true = true :=
  ⟨by simp [matchR, controlMatch, okHooks, st0, isLeaf],
   must_true_on_every_normal_return okHooks ['b'] (.one 'a') .action .active
     st0 true ⟨0, [], [Rule.one 'a']⟩
     (by simp [matchR, controlMatch, okHooks, st0, isLeaf])⟩

/-- C7: `not_at<R>` succeeds iff `at<R>` fails and vice versa (their callers
see exactly complementary boolean outcomes, and the same raised errors), and
`not_at<R>` never advances the cursor regardless of outcome. -/
theorem not_at_at_duality {σ : Type} (H : Hooks σ) (d : List Char) :
    (∀ (r : Rule) (A M A2 : ApplyMode) (M1 M2 : RewindMode) (st : St σ),
      outcome (matchR H d (.not_at r) A M1 st) =
        (outcome (matchR H d (.at1 r) A2 M2 st)).map Bool.not) ∧
    (∀ (r : Rule) (A : ApplyMode) (M : RewindMode) (st : St σ) (b : Bool)
        (st2 : St σ),
      matchR H d (.not_at r) A M st = .ok (b, st2) → st2.pos = st.pos) := by
  constructor
  · intro r A M A2 M1 M2 st
    rcases hY : controlMatch H d r .nothing .active st with e | ⟨b, st1⟩ <;>
      simp [matchR, hY, outcome, Except.map]
  · intro r A M st b st2 h
    simp only [matchR] at h
    rcases hY : controlMatch H d r .nothing .active st with e | ⟨b2, st1⟩ <;>
      rw [hY] at h
    · simp at h
    · rcases h with ⟨rfl⟩
      rfl

/-- C7 witness: on input "a", `not_at< one<'a'> >` fails while
`at< one<'a'> >` succeeds, with complementary outcomes and no cursor
movement. -/
theorem not_at_at_duality_witness :
    outcome (matchR logHooks ['a'] (.not_at (.one 'a')) .action .required st0) =
        (outcome (matchR logHooks ['a'] (.at1 (.one 'a')) .nothing .active st0)).map
          Bool.not ∧
      (matchR logHooks ['a'] (.not_at (.one 'a')) .action .required st0 =
          .ok (false, ⟨0, [], [Rule.one 'a']⟩) →
        (⟨0, [], [Rule.one 'a']⟩ : St ALog).pos = st0.pos) :=
  ⟨(not_at_at_duality logHooks ['a']).1 (.one 'a') .action .nothing .nothing
      .required .active st0,
   (not_at_at_duality logHooks ['a']).2 (.one 'a') .action .required st0 false
      ⟨0, [], [Rule.one 'a']⟩⟩

/-- C5: `at<R>` matches its sub-rule under apply mode `nothing` regardless of
the apply mode `at<R>` itself was invoked with, so its result does not depend
on the incoming apply mode at all, and on every normal return the user state
is unchanged: no Action hook fired inside the lookahead. -/
theorem at_forces_apply_nothing {σ : Type} (H : Hooks σ) (d : List Char)
    (hr : ∀ r st, H.raiseHook r st = defaultRaise r st) :
    (∀ (r : Rule) (A A2 : ApplyMode) (M : RewindMode) (st : St σ),
      matchR H d (.at1 r) A M st = matchR H d (.at1 r) A2 M st) ∧
    (∀ (r : Rule) (A : ApplyMode) (M : RewindMode) (st : St σ) (b : Bool)
        (st2 : St σ),
      matchR H d (.at1 r) A M st = .ok (b, st2) → st2.user = st.user) := by
  constructor
  · intro r A A2 M st
    simp only [matchR]
  · intro r A M st b st2 h
    simp only [matchR] at h
    rcases hY : controlMatch H d r .nothing .active st with e | ⟨b2, st1⟩ <;>
      rw [hY] at h
    · simp at h
    · rcases h with ⟨rfl⟩
      simpa using (noact_main H d hr (size r)).2.1 r .active st _ st1
        (Nat.le_refl _) hY

/-- C5 witness: looking ahead at `one<'a'>` on input "a" with apply mode
`action`: the result equals the `nothing`-mode run and the Action log is
untouched. -/
theorem at_forces_apply_nothing_witness :
    (∀ r st, logHooks.raiseHook r st = defaultRaise r st) ∧
      matchR logHooks ['a'] (.at1 (.one 'a')) .action .required st0 =
        matchR logHooks ['a'] (.at1 (.one 'a')) .nothing .required st0 ∧
      (matchR logHooks ['a'] (.at1 (.one 'a')) .action .required st0 =
          .ok (true, ⟨0, [], [Rule.one 'a']⟩) →
        (⟨0, [], [Rule.one 'a']⟩ : St ALog).user = st0.user) :=
  ⟨fun r st => rfl,
   (at_forces_apply_nothing logHooks ['a'] (fun r st => rfl)).1 (.one 'a')
      .action .nothing .required st0,
   (at_forces_apply_nothing logHooks ['a'] (fun r st => rfl)).2 (.one 'a')
      .action .required st0 true ⟨0, [], [Rule.one 'a']⟩⟩

/-- C2: under the raise contract (the raise hook never returns normally),
`must<R>::match` never returns `false` to its caller; on failure of R
(through its Control hook) it invokes the raise hook for R at the failure
state and propagates the raised error; on success of R it succeeds with R's
result. -/
theorem must_never_fails_outward {σ : Type} (H : Hooks σ) (d : List Char)
    (hnr : ∀ (r : Rule) (st : St σ) (x : Bool × St σ),
      H.raiseHook r st ≠ .ok x) :
    (∀ (r : Rule) (A : ApplyMode) (M : RewindMode) (st st2 : St σ),
      matchR H d (.must1 r) A M st ≠ .ok (false, st2)) ∧
    (∀ (r : Rule) (A : ApplyMode) (M : RewindMode) (st stf : St σ),
      controlMatch H d r A .dontcare st = .ok (false, stf) →
      matchR H d (.must1 r) A M st = H.raiseHook r stf) ∧
    (∀ (r : Rule) (A : ApplyMode) (M : RewindMode) (st st2 : St σ),
      controlMatch H d r A .dontcare st = .ok (true, st2) →
      matchR H d (.must1 r) A M st = .ok (true, st2)) := by
  refine ⟨?_, ?_, ?_⟩
  · intro r A M st st2 h
    simp only [matchR] at h
    rcases hY : controlMatch H d r A .dontcare st with e | ⟨b2, st3⟩ <;>
      rw [hY] at h
    · simp at h
    · cases b2
      · rcases hz : H.raiseHook r st3 with e2 | x <;> simp only [hz] at h
        · simp at h
        · exact hnr r st3 x hz
      · simp at h
  · intro r A M st stf hf
    simp only [matchR, hf]
    rcases hz : H.raiseHook r stf with e2 | x
    · simp [hz]
    · exact absurd hz (hnr r stf x)
  · intro r A M st st2 hs
    simp only [matchR, hs]

/-- C2 witness: with the default (always-raising) hooks, `must< one<'a'> >`
on input "b" does not return `false`; its result is the raise hook's raised
error at the failure state. -/
theorem must_never_fails_outward_witness :
    (∀ (r : Rule) (st : St ALog) (x : Bool × St ALog),
        logHooks.raiseHook r st ≠ .ok x) ∧
      matchR logHooks ['b'] (.must1 (.one 'a')) .action .active st0 ≠
        .ok (false, st0) ∧
      (controlMatch logHooks ['b'] (.one 'a') .action .dontcare st0 =
          .ok (false, ⟨0, [], [Rule.one 'a']⟩) →
        matchR logHooks ['b'] (.must1 (.one 'a')) .action .active st0 =
          logHooks.raiseHook (.one 'a') ⟨0, [], [Rule.one 'a']⟩) :=
  ⟨fun r st x h => by simp [logHooks, defaultRaise] at h,
   (must_never_fails_outward logHooks ['b']
      (fun r st x h => by simp [logHooks, defaultRaise] at h)).1
      (.one 'a') .action .active st0 st0,
   (must_never_fails_outward logHooks ['b']
      (fun r st x h => by simp [logHooks, defaultRaise] at h)).2.1
      (.one 'a') .action .active st0 ⟨0, [], [Rule.one 'a']⟩⟩

/-- C3: `must<R>` matches R under the `dontcare` rewind discipline and takes
no mark of its own: with the default raise hook, when R fails leaving the
cursor at the failure state, the raised error carries exactly that state's
position (no rewind happened before the raise); when R succeeds (under the
same apply mode, Action and Control, at the `dontcare` mode `must` uses),
`must<R>` returns R's result unchanged — cursor, user state and dispatch log
are indistinguishable from the plain run of R; moreover the success position
of a plain run of R under any other rewind mode is the same. -/
theorem must_no_rewind_frame {σ : Type} (H : Hooks σ) (d : List Char)
    (hr : ∀ r st, H.raiseHook r st = defaultRaise r st) :
    (∀ (r : Rule) (A : ApplyMode) (M : RewindMode) (st stf : St σ),
      controlMatch H d r A .dontcare st = .ok (false, stf) →
      matchR H d (.must1 r) A M st = .error ⟨r, stf.pos⟩) ∧
    (∀ (r : Rule) (A : ApplyMode) (M : RewindMode) (st st2 : St σ),
      controlMatch H d r A .dontcare st = .ok (true, st2) →
      matchR H d (.must1 r) A M st = .ok (true, st2)) ∧
    (∀ (r : Rule) (A A2 : ApplyMode) (M2 : RewindMode) (st st2 st3 : St σ),
      controlMatch H d r A .dontcare st = .ok (true, st2) →
      controlMatch H d r A2 M2 st = .ok (true, st3) →
      st3.pos = st2.pos) := by
  refine ⟨?_, ?_, ?_⟩
  · intro r A M st stf hf
    simp only [matchR, hf, hr, defaultRaise]
  · intro r A M st st2 hs
    simp only [matchR, hs]
  · intro r A A2 M2 st st2 st3 h1 h2
    have hAg1 := (agree_main H d hr (size r)).2.1 r A .dontcare st
      (Nat.le_refl _)
    have hAg2 := (agree_main H d hr (size r)).2.1 r A2 M2 st (Nat.le_refl _)
    rw [h1] at hAg1
    rw [h2] at hAg2
    rcases hrun : runR d r st.pos with e | ⟨b, p⟩ <;> rw [hrun] at hAg1 hAg2
    · simp [AgreeR] at hAg1
    · cases b
      · simp [AgreeR] at hAg1
      · simp only [AgreeR] at hAg1 hAg2
        rw [hAg1, hAg2]

/-- C3 witness: `must< one<'a'> >` on input "b" raises at position 0, the
exact position where `one<'a'>` failed; on input "a" it returns the plain
result of `one<'a'>`. -/
theorem must_no_rewind_frame_witness :
    (∀ r st, logHooks.raiseHook r st = defaultRaise r st) ∧
      (controlMatch logHooks ['b'] (.one 'a') .action .dontcare st0 =
          .ok (false, ⟨0, [], [Rule.one 'a']⟩) →
        matchR logHooks ['b'] (.must1 (.one 'a')) .action .active st0 =
          .error ⟨.one 'a', (⟨0, [], [Rule.one 'a']⟩ : St ALog).pos⟩) ∧
      (controlMatch logHooks ['a'] (.one 'a') .action .dontcare st0 =
          .ok (true, ⟨1, [(0, 1)], [Rule.one 'a']⟩) →
        matchR logHooks ['a'] (.must1 (.one 'a')) .action .active st0 =
          .ok (true, ⟨1, [(0, 1)], [Rule.one 'a']⟩)) :=
  ⟨fun r st => rfl,
   (must_no_rewind_frame logHooks ['b'] (fun r st => rfl)).1 (.one 'a')
      .action .active st0 ⟨0, [], [Rule.one 'a']⟩,
   (must_no_rewind_frame logHooks ['a'] (fun r st => rfl)).2.1 (.one 'a')
      .action .active st0 ⟨1, [(0, 1)], [Rule.one 'a']⟩⟩

/-- C4: `at<R>` succeeds iff R succeeds at the same position (their callers
see the same boolean outcome and the same raised errors, no matter which
apply and rewind modes the plain run of R uses), and on every normal return
the cursor is back at the entry position: the `required` mark is never
committed, so the lookahead is zero-width on every outcome. -/
theorem at_zero_width_lookahead {σ : Type} (H : Hooks σ) (d : List Char)
    (hr : ∀ r st, H.raiseHook r st = defaultRaise r st) :
    (∀ (r : Rule) (A : ApplyMode) (M : RewindMode) (A2 : ApplyMode)
        (M2 : RewindMode) (st : St σ),
      outcome (matchR H d (.at1 r) A M st) =
        outcome (controlMatch H d r A2 M2 st)) ∧
    (∀ (r : Rule) (A : ApplyMode) (M : RewindMode) (st : St σ) (b : Bool)
        (st2 : St σ),
      matchR H d (.at1 r) A M st = .ok (b, st2) → st2.pos = st.pos) := by
  constructor
  · intro r A M A2 M2 st
    have hAg1 := (agree_main H d hr (size r)).2.1 r .nothing .active st
      (Nat.le_refl _)
    have hAg2 := (agree_main H d hr (size r)).2.1 r A2 M2 st (Nat.le_refl _)
    have hout1 : outcome (matchR H d (.at1 r) A M st) =
        outcome (controlMatch H d r .nothing .active st) := by
      rcases hY1 : controlMatch H d r .nothing .active st with e | ⟨b1, st1⟩ <;>
        simp [matchR, hY1, outcome]
    rw [hout1]
    rcases hrun : runR d r st.pos with e3 | ⟨b3, p⟩ <;>
      rw [hrun] at hAg1 hAg2 <;>
      rcases hY1 : controlMatch H d r .nothing .active st with e | ⟨b1, st1⟩ <;>
      rw [hY1] at hAg1 <;>
      rcases hY2 : controlMatch H d r A2 M2 st with e2 | ⟨b2, st2⟩ <;>
      rw [hY2] at hAg2
    all_goals try cases b3
    all_goals try cases b1
    all_goals try cases b2
    all_goals simp_all [AgreeR, outcome]
  · intro r A M st b st2 h
    simp only [matchR] at h
    rcases hY : controlMatch H d r .nothing .active st with e | ⟨b2, st1⟩ <;>
      rw [hY] at h
    · simp at h
    · rcases h with ⟨rfl⟩
      rfl

/-- C4 witness: on input "a", `at< one<'a'> >` has the same outcome as the
plain action-mode run of `one<'a'>` and leaves the cursor at position 0. -/
theorem at_zero_width_lookahead_witness :
    (∀ r st, logHooks.raiseHook r st = defaultRaise r st) ∧
      outcome (matchR logHooks ['a'] (.at1 (.one 'a')) .action .required st0) =
        outcome (controlMatch logHooks ['a'] (.one 'a') .action .required st0) ∧
      (matchR logHooks ['a'] (.at1 (.one 'a')) .action .required st0 =
          .ok (true, ⟨0, [], [Rule.one 'a']⟩) →
        (⟨0, [], [Rule.one 'a']⟩ : St ALog).pos = st0.pos) :=
  ⟨fun r st => rfl,
   (at_zero_width_lookahead logHooks ['a'] (fun r st => rfl)).1 (.one 'a')
      .action .required .action .required st0,
   (at_zero_width_lookahead logHooks ['a'] (fun r st => rfl)).2 (.one 'a')
      .action .required st0 true ⟨0, [], [Rule.one 'a']⟩⟩

theorem controlMatch_must1_raises {σ : Type} (H : Hooks σ) (d : List Char)
    (hr : ∀ r st, H.raiseHook r st = defaultRaise r st)
    (r : Rule) (A : ApplyMode) (M : RewindMode) (st stf : St σ)
    (hf : controlMatch H d r A .dontcare st = .ok (false, stf)) :
    controlMatch H d (.must1 r) A M st = .error ⟨r, stf.pos⟩ := by
  have hAg1 := (agree_main H d hr (size r)).2.1 r A .dontcare st (Nat.le_refl _)
  rw [hf] at hAg1
  rcases hrun : runR d r st.pos with e | ⟨b, p⟩ <;> rw [hrun] at hAg1
  · simp [AgreeR] at hAg1
  · cases b
    · have hp1 : stf.pos = p := by simpa [AgreeR] using hAg1
      have hAg2 := (agree_main H d hr (size r)).2.1 r A .dontcare
        { st with calls := Rule.must1 r :: st.calls } (Nat.le_refl _)
      rcases hcm2 : controlMatch H d r A .dontcare
          { st with calls := Rule.must1 r :: st.calls } with e2 | ⟨b2, st3⟩ <;>
        rw [hcm2,
          show ({ st with calls := Rule.must1 r :: st.calls } : St σ).pos = st.pos
            from rfl, hrun] at hAg2
      · simp [AgreeR] at hAg2
      · cases b2
        · have hp3 : st3.pos = p := by simpa [AgreeR] using hAg2
          have hstep : matchR H d (.must1 r) A M
              { st with calls := Rule.must1 r :: st.calls } =
                .error ⟨r, st3.pos⟩ := by
            simp only [matchR, hcm2, hr, defaultRaise]
          simp only [controlMatch, hstep]
          rw [hp3, hp1]
        · simp [AgreeR] at hAg2
    · simp [AgreeR] at hAg1

/-- C6: rules are matched through the Control hook parameterized by the rule
type: after a successful sequence, every rule of the sequence — including
`at<...>` and `must<...>` combinator nodes appearing there — was dispatched
through its Control hook and is recorded in the dispatch log; likewise the
`must<Ri>` nodes that the variadic `must` pack generates for its sub-rules. -/
theorem every_rule_through_control {σ : Type} (H : Hooks σ) (d : List Char)
    (hr : ∀ r st, H.raiseHook r st = defaultRaise r st) :
    (∀ (rs : List Rule) (r : Rule) (A : ApplyMode) (M : RewindMode)
        (st st2 : St σ), r ∈ rs →
      matchR H d (.seq rs) A M st = .ok (true, st2) → r ∈ st2.calls) ∧
    (∀ (rs : List Rule) (r : Rule) (A : ApplyMode) (M : RewindMode)
        (st st2 : St σ), 2 ≤ rs.length → r ∈ rs →
      matchR H d (.mustN rs) A M st = .ok (true, st2) →
        Rule.must1 r ∈ st2.calls) := by
  constructor
  · intro rs r A M st st2 hmem h
    simp only [matchR] at h
    have h2 := (runMark_ok_true M st.pos _ st2).mp h
    exact matchList_mem H d hr rs r A (nextMode M) st st2 hmem h2
  · intro rs r A M st st2 hlen hmem h
    rw [matchR_mustN_big H d rs (by omega)] at h
    have h2 := (runMark_ok_true M st.pos _ st2).mp h
    exact matchMustList_mem H d hr rs r A (nextMode M) st st2 hmem h2

/-- C6 witness: matching `seq< must<one<'a'>> >` on "a" records the
`must<one<'a'>>` combinator node itself in the Control-dispatch log, and the
variadic `must< one<'a'>, one<'b'> >` on "ab" records `must<one<'a'>>`. -/
theorem every_rule_through_control_witness :
    (Rule.must1 (.one 'a') ∈ ([Rule.must1 (.one 'a')] : List Rule)) ∧
      matchR logHooks ['a'] (.seq [Rule.must1 (.one 'a')]) .action .required st0 =
        .ok (true, ⟨1, [(0, 1)], [Rule.one 'a', Rule.must1 (.one 'a')]⟩) ∧
      Rule.must1 (.one 'a') ∈
        (⟨1, [(0, 1)], [Rule.one 'a', Rule.must1 (.one 'a')]⟩ : St ALog).calls ∧
      (2 ≤ ([Rule.one 'a', Rule.one 'b'] : List Rule).length ∧
        Rule.must1 (.one 'a') ∈
          (⟨2, [(1, 2), (0, 1)],
            [Rule.one 'b', Rule.must1 (.one 'b'), Rule.one 'a',
              Rule.must1 (.one 'a')]⟩ : St ALog).calls) := by
  refine ⟨by simp, ?_, ?_, by simp, ?_⟩
  · simp [matchR, matchList, controlMatch, runMark, nextMode, logHooks, st0,
      isLeaf]
  · exact (every_rule_through_control logHooks ['a'] (fun r st => rfl)).1
      [Rule.must1 (.one 'a')] (Rule.must1 (.one 'a')) .action .required st0
      ⟨1, [(0, 1)], [Rule.one 'a', Rule.must1 (.one 'a')]⟩ (by simp)
      (by simp [matchR, matchList, controlMatch, runMark, nextMode, logHooks,
        st0, isLeaf])
  · exact (every_rule_through_control logHooks ['a', 'b'] (fun r st => rfl)).2
      [Rule.one 'a', Rule.one 'b'] (Rule.one 'a') .action .required st0
      ⟨2, [(1, 2), (0, 1)],
        [Rule.one 'b', Rule.must1 (.one 'b'), Rule.one 'a',
          Rule.must1 (.one 'a')]⟩ (by simp) (by simp)
      (by simp [matchR, matchMustList, controlMatch, runMark, nextMode,
        logHooks, st0, isLeaf, defaultRaise])

/-- C1: for a pack of at least two rules, the variadic `must<R1,...,Rn>`
matches exactly like `seq< must<R1>, ..., must<Rn> >` — each rule wrapped in
its own `must` individually; and with the default raise hook, when the rules
before some sub-rule succeed and that sub-rule then fails (under the
`dontcare` mode `must` uses), the pack raises an error carrying that
sub-rule's identity and the exact position at which its match failed — not a
rewound sequence-level position. -/
theorem must_pack_expansion {σ : Type} (H : Hooks σ) (d : List Char)
    (hr : ∀ r st, H.raiseHook r st = defaultRaise r st) :
    (∀ (rs : List Rule) (A : ApplyMode) (M : RewindMode) (st : St σ),
      2 ≤ rs.length →
      matchR H d (.mustN rs) A M st =
        matchR H d (.seq (rs.map Rule.must1)) A M st) ∧
    (∀ (rs1 : List Rule) (r : Rule) (rs2 : List Rule) (A : ApplyMode)
        (M : RewindMode) (st st1 stf : St σ),
      matchMustList H d rs1 A (nextMode M) st = .ok (true, st1) →
      controlMatch H d r A .dontcare st1 = .ok (false, stf) →
      matchR H d (.mustN (rs1 ++ r :: rs2)) A M st = .error ⟨r, stf.pos⟩) := by
  constructor
  · intro rs A M st hlen
    rw [matchR_mustN_big H d rs (by omega)]
    have hseq : matchR H d (.seq (rs.map Rule.must1)) A M st =
        runMark M st.pos (matchList H d (rs.map Rule.must1) A (nextMode M) st) := by
      simp only [matchR]
    rw [hseq, matchMustList_eq_matchList]
  · intro rs1 r rs2 A M st st1 stf hML hf
    have hgen : (rs1 ++ r :: rs2).length ≠ 1 →
        matchR H d (.mustN (rs1 ++ r :: rs2)) A M st = .error ⟨r, stf.pos⟩ := by
      intro hlen
      rw [matchR_mustN_big H d _ hlen]
      have hkey := controlMatch_must1_raises H d hr r A (nextMode M) st1 stf hf
      have hlist : matchMustList H d (rs1 ++ r :: rs2) A (nextMode M) st =
          .error ⟨r, stf.pos⟩ := by
        rw [matchMustList_append H d rs1 (r :: rs2) A (nextMode M) st st1 hML]
        simp only [matchMustList, hkey]
      rw [hlist]
      simp [runMark]
    rcases rs1 with - | ⟨x, xs⟩
    · rcases rs2 with - | ⟨y, ys⟩
      · simp only [matchMustList] at hML
        rcases hML with ⟨rfl⟩
        simp only [List.nil_append]
        rw [matchR_mustN_one]
        simp only [matchR, hf, hr, defaultRaise]
      · exact hgen (by simp <;> omega)
    · exact hgen (by simp <;> omega)

/-- C1 witness: the pack equality applied to `must< one<'a'>, one<'b'> >`,
and the error-locality instance on input "b" where the first sub-rule fails
at position 0. -/
theorem must_pack_expansion_witness :
    (2 ≤ ([Rule.one 'a', Rule.one 'b'] : List Rule).length ∧
      matchR logHooks ['a', 'b'] (.mustN [Rule.one 'a', Rule.one 'b'])
          .action .required st0 =
        matchR logHooks ['a', 'b']
          (.seq ([Rule.one 'a', Rule.one 'b'].map Rule.must1))
          .action .required st0) ∧
    (matchMustList logHooks ['b'] ([] : List Rule) .action
        (nextMode .active) st0 = .ok (true, st0) ∧
      controlMatch logHooks ['b'] (.one 'a') .action .dontcare st0 =
        .ok (false, ⟨0, [], [Rule.one 'a']⟩) ∧
      matchR logHooks ['b'] (.mustN ([] ++ Rule.one 'a' :: [Rule.one 'b']))
          .action .active st0 =
        .error ⟨.one 'a', (⟨0, [], [Rule.one 'a']⟩ : St ALog).pos⟩) := by
  refine ⟨⟨by simp, ?_⟩, ?_, ?_, ?_⟩
  · exact (must_pack_expansion logHooks ['a', 'b'] (fun r st => rfl)).1
      [Rule.one 'a', Rule.one 'b'] .action .required st0 (by simp)
  · simp [matchMustList]
  · simp [controlMatch, matchR, logHooks, st0, isLeaf]
  · exact (must_pack_expansion logHooks ['b'] (fun r st => rfl)).2
      [] (.one 'a') [Rule.one 'b'] .action .active st0 st0
      ⟨0, [], [Rule.one 'a']⟩ (by simp [matchMustList])
      (by simp [controlMatch, matchR, logHooks, st0, isLeaf])

end PEGTLSpec
